import Mathlib

/-!
Verification of the packed-rational coefficient core of `symbolica`
(`src/representations/number.rs`).

The development shallow-embeds the `Number` data model, the borrowed-number
arithmetic (`add`, `mul`, `pow`, `normalize`), and the packed byte codec
(`write_packed`, `get_packed_size`, `get_number_view`, `get_frac_u64`,
`get_frac_i64`, `skip_rational`, `is_zero_rat`, `is_one_rat`).

Machine integers are modelled as `Int`/`Nat` with explicit range checks
mirroring Rust's checked arithmetic; operations that panic in Rust
(`unreachable!`, `panic!`, out-of-bounds indexing, buffer underflow,
overflow of `abs`/negation) return `none`.  Byte buffers are `List ℕ`
whose entries are byte values.
-/

namespace Symbolica

/-! ## Machine-integer ranges and checked arithmetic -/

def i64Min : Int := -(2 ^ 63)

def i64Max : Int := 2 ^ 63 - 1

/-- `u32::MAX` as a natural number. -/
def u32Max : ℕ := 4294967295

/-- The value range of `i64`. -/
def inI64 (x : Int) : Prop := i64Min ≤ x ∧ x ≤ i64Max

instance (x : Int) : Decidable (inI64 x) :=
  inferInstanceAs (Decidable (i64Min ≤ x ∧ x ≤ i64Max))

/-- Model of `i64::checked_mul`. -/
def checked_mul (a b : Int) : Option Int :=
  if inI64 (a * b) then some (a * b) else none

/-- Model of `i64::checked_add`. -/
def checked_add (a b : Int) : Option Int :=
  if inI64 (a + b) then some (a + b) else none

/-- Model of `i64::checked_pow`: defined iff the exact power is representable. -/
def checked_pow (b : Int) (e : ℕ) : Option Int :=
  if inI64 (b ^ e) then some (b ^ e) else none

/-- Model of `i64::abs`, which panics (overflow) exactly at `i64::MIN`. -/
def checked_abs (x : Int) : Option Int :=
  if inI64 |x| then some |x| else none

/-! ## Data model: `Number`, `BorrowedNumber`, `State` -/

/-- `Number` from `number.rs`.  `Large` holds the value of the `rug::Rational`
(arbitrary-precision rationals are canonical reduced values, so `ℚ` is a
faithful model); `FiniteField` holds the `u64` element representative and the
field index. -/
inductive Number where
  | Natural : Int → Int → Number
  | Large : ℚ → Number
  | FiniteField : ℕ → ℕ → Number
  deriving DecidableEq

/-- `BorrowedNumber` from `number.rs`; the `Large` arm borrows the rational,
which the model represents by its value. -/
inductive BorrowedNumber where
  | Natural : Int → Int → BorrowedNumber
  | Large : ℚ → BorrowedNumber
  | FiniteField : ℕ → ℕ → BorrowedNumber
  deriving DecidableEq

/-- `Number::to_borrowed`. -/
def Number.to_borrowed : Number → BorrowedNumber
  | .Natural n d => .Natural n d
  | .Large r => .Large r
  | .FiniteField e i => .FiniteField e i

/-- Modelled from the spec: the `State` collaborator (`state.rs` is not part of
the source fragment).  Per §4.3 it supplies, per field index, an `add` and a
`mul` on element payloads; the model keeps them abstract. -/
structure State where
  ffAdd : ℕ → ℕ → ℕ → ℕ
  ffMul : ℕ → ℕ → ℕ → ℕ

/-- Modelled from the spec: `utils::gcd_signed` (`utils.rs` is not part of the
source fragment).  §4.1 says normalization of `Natural (n, d)` divides both
parts by `gcd(|n|, |d|)`, so `gcd_signed` is the non-negative gcd of the
absolute values. -/
def gcd_signed (a b : Int) : Int := (Int.gcd a b : ℕ)

/-- The rational value of a machine fraction; models `rug::Rational::from((n, d))`
for `d ≠ 0`. -/
def ratN (n d : Int) : ℚ := (n : ℚ) / (d : ℚ)

/-- The rational value of a `Number`.  Finite-field elements carry no rational
value; they are mapped to `0` and excluded by hypotheses wherever values matter. -/
def Number.value : Number → ℚ
  | .Natural n d => ratN n d
  | .Large r => r
  | .FiniteField _ _ => 0

/-! ## Borrowed-number arithmetic

Each operation mirrors the corresponding `impl BorrowedNumber` method arm by
arm; `none` models the `panic!`/`unimplemented!` branches (mixing finite
fields with other variants, mismatched field indices, oversized exponents). -/

/-- `BorrowedNumber::normalize`. -/
def BorrowedNumber.normalize : BorrowedNumber → Number
  | .Natural num den =>
    let g := gcd_signed num den
    Number.Natural (num.tdiv g) (den.tdiv g)
  | .Large r => Number.Large r
  | .FiniteField e i => Number.FiniteField e i

/-- `BorrowedNumber::add`. -/
def BorrowedNumber.add (st : State) : BorrowedNumber → BorrowedNumber → Option Number
  | .Natural n1 d1, .Natural n2 d2 =>
    some (match checked_mul d2 (d1.tdiv (gcd_signed d1 d2)) with
    | some lcm =>
      match checked_mul n2 (lcm.tdiv d2), checked_mul n1 (lcm.tdiv d1) with
      | some num2, some num1 =>
        match checked_add num1 num2 with
        | some num =>
          Number.Natural (num.tdiv (gcd_signed num lcm)) (lcm.tdiv (gcd_signed num lcm))
        | none => Number.Large (ratN n1 d1 + ratN n2 d2)
      | _, _ => Number.Large (ratN n1 d1 + ratN n2 d2)
    | none => Number.Large (ratN n1 d1 + ratN n2 d2))
  | .Natural n1 d1, .Large r2 => some (Number.Large (ratN n1 d1 + r2))
  | .Large r2, .Natural n1 d1 => some (Number.Large (ratN n1 d1 + r2))
  | .Large r1, .Large r2 => some (Number.Large (r1 + r2))
  | .FiniteField e1 i1, .FiniteField e2 i2 =>
    if i1 = i2 then some (Number.FiniteField (st.ffAdd i1 e1 e2) i1) else none
  | .FiniteField _ _, _ => none
  | _, .FiniteField _ _ => none

/-- `BorrowedNumber::mul`. -/
def BorrowedNumber.mul (st : State) : BorrowedNumber → BorrowedNumber → Option Number
  | .Natural n1 d1, .Natural n2 d2 =>
    let gcd1 := gcd_signed n1 d2
    let gcd2 := gcd_signed d1 n2
    some (match checked_mul (n2.tdiv gcd2) (n1.tdiv gcd1) with
    | some nn =>
      match checked_mul (d1.tdiv gcd2) (d2.tdiv gcd1) with
      | some nd => Number.Natural nn nd
      | none => Number.Large ((nn : ℚ) / ((d1.tdiv gcd2 * d2.tdiv gcd1 : Int) : ℚ))
    | none =>
      Number.Large (((n1.tdiv gcd1 * n2.tdiv gcd2 : Int) : ℚ) /
        ((d1.tdiv gcd2 * d2.tdiv gcd1 : Int) : ℚ)))
  | .Natural n1 d1, .Large r2 => some (Number.Large (ratN n1 d1 * r2))
  | .Large r2, .Natural n1 d1 => some (Number.Large (ratN n1 d1 * r2))
  | .Large r1, .Large r2 => some (Number.Large (r1 * r2))
  | .FiniteField e1 i1, .FiniteField e2 i2 =>
    if i1 = i2 then some (Number.FiniteField (st.ffMul i1 e1 e2) i1) else none
  | .FiniteField _ _, _ => none
  | _, .FiniteField _ _ => none

/-- The body of `BorrowedNumber::pow` after the exponent sign flip: `bn, bd`
is the (possibly inverted) base, `e` the non-negative exponent and `d2` the
exponent's denominator.  The `e < u32::MAX` guard aborts (`none`) on
oversized exponents.  The overflow fallback constructs
`Rational::from((bn, bd))`, which panics in `rug` on a zero denominator
(reachable when a zero-numerator base is inverted by a negative exponent);
that panic is `none` here. -/
def pow_nat (bn bd e d2 : Int) : Option (Number × Number) :=
  if e < (u32Max : Int) then
    match checked_pow bn e.toNat, checked_pow bd e.toNat with
    | some pn, some pd => some (Number.Natural pn pd, Number.Natural 1 d2)
    | _, _ =>
      if bd = 0 then none
      else some (Number.Large (ratN bn bd ^ e.toNat), Number.Natural 1 d2)
  else none

/-- `BorrowedNumber::pow`.  A negative exponent numerator inverts the base and
is negated; the non-Natural configurations hit `unimplemented!`. -/
def BorrowedNumber.pow (_st : State) : BorrowedNumber → BorrowedNumber → Option (Number × Number)
  | .Natural n1 d1, .Natural n2 d2 =>
    if n2 < 0 then pow_nat d1 n1 (-n2) d2 else pow_nat n1 d1 n2 d2
  | _, _ => none

/-! ## Packed codec: constants and byte-level helpers -/

def U8_NUM : ℕ := 0b00000001

def U16_NUM : ℕ := 0b00000010

def U32_NUM : ℕ := 0b00000011

def U64_NUM : ℕ := 0b00000100

def FIN_NUM : ℕ := 0b00000101

def ARB_NUM : ℕ := 0b00000111

def U8_DEN : ℕ := 0b00010000

def U16_DEN : ℕ := 0b00100000

def U32_DEN : ℕ := 0b00110000

def U64_DEN : ℕ := 0b01000000

def ARB_DEN : ℕ := 0b01110000

def NUM_MASK : ℕ := 0b00001111

def DEN_MASK : ℕ := 0b01110000

def SIGN : ℕ := 0b10000000

/-- Modelled from the spec: `std::mem::size_of::<rug::Rational>()`, the number
of raw object bytes an arbitrary-precision payload occupies on the tape (§9).
The exact value is ABI-specific; every theorem below is independent of it. -/
def ratSize : ℕ := 32

/-- Little-endian byte encoding of `v` in `w` bytes (`put_u8` / `put_u16_le` /
`put_u32_le` / `put_u64_le`). -/
def leBytes : ℕ → ℕ → List ℕ
  | 0, _ => []
  | w + 1, v => v % 256 :: leBytes w (v / 256)

/-- Little-endian value of a byte list (`get_u8` / `get_u16_le` / ...). -/
def leVal (l : List ℕ) : ℕ := l.foldr (fun b acc => b + 256 * acc) 0

/-- Read `w` little-endian bytes off the front of a slice; `none` models the
panic of the `bytes` crate on underflow. -/
def readLE (w : ℕ) (l : List ℕ) : Option (ℕ × List ℕ) :=
  if w ≤ l.length then some (leVal (l.take w), l.drop w) else none

/-- `Buf::advance`, which panics past the end of the slice. -/
def advance (k : ℕ) (l : List ℕ) : Option (List ℕ) :=
  if k ≤ l.length then some (l.drop k) else none

/-- `get_size_of_natural`; the `unreachable!` arm is `none`. -/
def get_size_of_natural (t : ℕ) : Option ℕ :=
  if t = 0 then some 0
  else if t = U8_NUM then some 1
  else if t = U16_NUM then some 2
  else if t = U32_NUM then some 4
  else if t = U64_NUM then some 8
  else none

/-! ## Packed codec: writers -/

/-- Model of `<(u64, u64) as PackedRationalNumberWriter>::write_packed`.
The source first appends the numerator tag and magnitude, then ORs the
denominator tag into the first appended byte and appends the denominator
magnitude; the net bytes are the combined tag followed by the two fields.
The u32-denominator branch reproduces the source's extra `dest.put_u8(3)`
before the four little-endian bytes. -/
def write_packed_u64 (n d : ℕ) : List ℕ :=
  let p :=
    if n < 255 then (U8_NUM, leBytes 1 n)
    else if n < 65535 then (U16_NUM, leBytes 2 n)
    else if n < u32Max then (U32_NUM, leBytes 4 n)
    else (U64_NUM, leBytes 8 n)
  let q :=
    if d = 1 then (0, ([] : List ℕ))
    else if d < 255 then (U8_DEN, leBytes 1 d)
    else if d < 65535 then (U16_DEN, leBytes 2 d)
    else if d < u32Max then (U32_DEN, 3 :: leBytes 4 d)
    else (U64_DEN, leBytes 8 d)
  (p.1 ||| q.1) :: (p.2 ++ q.2)

/-- OR the sign bit into the first written byte (`dest[p] |= SIGN`). -/
def set_sign : List ℕ → List ℕ
  | [] => []
  | b :: t => (b ||| SIGN) :: t

/-- Model of `<(i64, i64) as PackedRationalNumberWriter>::write_packed`:
take absolute values (panicking at `i64::MIN`), pack as unsigned, set the
sign bit iff exactly one of the parts is negative. -/
def write_packed_i64 (n d : Int) : Option (List ℕ) :=
  match checked_abs n, checked_abs d with
  | some na, some da =>
    let bytes := write_packed_u64 na.toNat da.toNat
    some (if (0 ≤ n ∧ d < 0) ∨ (n < 0 ∧ 0 ≤ d) then set_sign bytes else bytes)
  | _, _ => none

/-- Model of `<Number as PackedRationalNumberWriter>::write_packed`.  The
`Large` arm copies the raw in-memory object bytes of the `rug::Rational`
(spec §9); the model abstracts that ABI-specific step as a caller-supplied
encoding `enc`. -/
def Number.write_packed (enc : ℚ → List ℕ) : Number → Option (List ℕ)
  | .Natural n d => write_packed_i64 n d
  | .Large r => some ((ARB_NUM ||| ARB_DEN) :: enc r)
  | .FiniteField e i => some (FIN_NUM :: write_packed_u64 e i)

/-- Rust `as u64` cast of an `i64` value. -/
def toU64 (x : Int) : ℕ := (x % (2 ^ 64 : Int)).toNat

/-- Model of `<(u64, u64) as PackedRationalNumberWriter>::get_packed_size`. -/
def get_packed_size_u64 (n d : ℕ) : ℕ :=
  1 + (if n < 255 then 1 else if n < 65535 then 2 else if n < u32Max then 4 else 8)
    + (if d = 1 then 0
       else if d < 255 then 1 else if d < 65535 then 2 else if d < u32Max then 4 else 8)

/-- Model of `<Number as PackedRationalNumberWriter>::get_packed_size`.  The
`(i64, i64)` instance forwards the parts through a plain `as u64` cast. -/
def Number.get_packed_size : Number → ℕ
  | .Natural n d => get_packed_size_u64 (toU64 n) (toU64 d)
  | .Large _ => 1 + ratSize
  | .FiniteField e i => 2 + get_packed_size_u64 e i

/-! ## Packed codec: readers -/

/-- Field decode for the numerator kind of a discriminator.  `ARB_NUM` is the
`panic!("Overflow")` arm and the remaining codes the `unreachable!` arm. -/
def readNumField (code : ℕ) (l : List ℕ) : Option (ℕ × List ℕ) :=
  if code = U8_NUM then readLE 1 l
  else if code = U16_NUM then readLE 2 l
  else if code = U32_NUM then readLE 4 l
  else if code = U64_NUM then readLE 8 l
  else none

/-- Field decode for the denominator kind bits of a discriminator. -/
def readDenField (code : ℕ) (l : List ℕ) : Option (ℕ × List ℕ) :=
  if code = 0 then some (1, l)
  else if code = U8_DEN then readLE 1 l
  else if code = U16_DEN then readLE 2 l
  else if code = U32_DEN then readLE 4 l
  else if code = U64_DEN then readLE 8 l
  else none

/-- `<[u8] as PackedRationalNumberReader>::get_frac_u64`. -/
def get_frac_u64 (l : List ℕ) : Option (ℕ × ℕ × List ℕ) :=
  match l with
  | [] => none
  | disc :: rest =>
    match readNumField (disc &&& NUM_MASK) rest with
    | none => none
    | some (num, r1) =>
      match readDenField (disc &&& DEN_MASK) r1 with
      | none => none
      | some (den, r2) => some (num, den, r2)

/-- Rust `as i64` cast of a `u64` value (wraps at `2^63`). -/
def toI64 (v : ℕ) : Int := if v < 2 ^ 63 then (v : Int) else (v : Int) - 2 ^ 64

/-- `<[u8] as PackedRationalNumberReader>::get_frac_i64`.  Each field is read
unsigned at its width and cast with `as i64`; only the u64 width can wrap.
The sign bit negates the numerator with a plain `i64` negation, which
overflows (debug panic, here `none`) exactly when the wrapped numerator is
`i64::MIN`, i.e. a u64 payload of `2^63`. -/
def get_frac_i64 (l : List ℕ) : Option (Int × Int × List ℕ) :=
  match l with
  | [] => none
  | disc :: rest =>
    match readNumField (disc &&& NUM_MASK) rest with
    | none => none
    | some (num, r1) =>
      match readDenField (disc &&& DEN_MASK) r1 with
      | none => none
      | some (den, r2) =>
        let nI : Int := if disc &&& NUM_MASK = U64_NUM then toI64 num else (num : Int)
        let dI : Int := if disc &&& DEN_MASK = U64_DEN then toI64 den else (den : Int)
        if disc &&& SIGN ≠ 0 then
          if nI = i64Min then none else some (-nI, dI, r2)
        else some (nI, dI, r2)

/-- The single error path of `get_frac_i64` on a well-formed run: a u64-width
numerator whose 8-byte payload is exactly `2^63` under a set sign bit wraps
to `i64::MIN`, and the subsequent negation overflows.  Every other
well-formed run decodes. -/
def view_sign_ok (l : List ℕ) : Prop :=
  match l with
  | [] => True
  | disc :: rest =>
    ¬ (disc &&& NUM_MASK = U64_NUM ∧ disc &&& SIGN ≠ 0 ∧ leVal (rest.take 8) = 2 ^ 63)

instance : (l : List ℕ) → Decidable (view_sign_ok l)
  | [] => Decidable.isTrue trivial
  | disc :: rest =>
    inferInstanceAs (Decidable
      (¬ (disc &&& NUM_MASK = U64_NUM ∧ disc &&& SIGN ≠ 0 ∧
        leVal (rest.take 8) = 2 ^ 63)))

/-- `<[u8] as PackedRationalNumberReader>::get_number_view`.  The
arbitrary-precision arm reinterprets the next `ratSize` bytes in place as a
borrowed `rug::Rational` (spec §9); the model abstracts the reinterpretation
as a caller-supplied decoding `dec`. -/
def get_number_view (dec : List ℕ → ℚ) (l : List ℕ) : Option (BorrowedNumber × List ℕ) :=
  match l with
  | [] => none
  | disc :: source =>
    if disc &&& NUM_MASK = ARB_NUM then
      if ratSize ≤ source.length then
        some (BorrowedNumber.Large (dec (source.take ratSize)), source.drop ratSize)
      else none
    else if disc &&& NUM_MASK = FIN_NUM then
      match get_frac_u64 source with
      | none => none
      | some (num, fi, rest) => some (BorrowedNumber.FiniteField num fi, rest)
    else
      match get_frac_i64 l with
      | none => none
      | some (num, den, rest) => some (BorrowedNumber.Natural num den, rest)

/-- `<[u8] as PackedRationalNumberReader>::skip_rational`. -/
def skip_rational (l : List ℕ) : Option (List ℕ) :=
  match l with
  | [] => none
  | disc :: rest =>
    if disc &&& NUM_MASK = ARB_NUM then advance ratSize rest
    else if disc &&& NUM_MASK = FIN_NUM then
      match rest with
      | [] => none
      | disc2 :: rest2 =>
        match get_size_of_natural (disc2 &&& NUM_MASK),
              get_size_of_natural ((disc2 &&& DEN_MASK) >>> 4) with
        | some a, some b => advance (a + b) rest2
        | _, _ => none
    else
      match get_size_of_natural (disc &&& NUM_MASK),
            get_size_of_natural ((disc &&& DEN_MASK) >>> 4) with
      | some a, some b => advance (a + b) rest
      | _, _ => none

/-- `<[u8] as PackedRationalNumberReader>::is_zero_rat`:
`self[1] == 1 && self[2] == 0` with Rust's short-circuit `&&`; an
out-of-bounds index is a panic (`none`). -/
def is_zero_rat (l : List ℕ) : Option Bool :=
  match l[1]? with
  | none => none
  | some b1 =>
    if b1 = 1 then
      match l[2]? with
      | none => none
      | some b2 => some (b2 == 0)
    else some false

/-- `<[u8] as PackedRationalNumberReader>::is_one_rat`:
`self[1] == 1 && self[2] == 1`. -/
def is_one_rat (l : List ℕ) : Option Bool :=
  match l[1]? with
  | none => none
  | some b1 =>
    if b1 = 1 then
      match l[2]? with
      | none => none
      | some b2 => some (b2 == 1)
    else some false

/-! ## Fixed trivial instantiations used by concrete evaluations -/

/-- A throwaway encoding of arbitrary-precision payload bytes, used to
instantiate `enc` in theorems whose inputs never reach the `Large` arm. -/
def encTrivial : ℚ → List ℕ := fun _ => []

/-- A throwaway decoding of arbitrary-precision payload bytes. -/
def decTrivial : List ℕ → ℚ := fun _ => 0

/-- A concrete `State` used to instantiate theorems whose inputs never reach
the finite-field arms. -/
def stTrivial : State :=
  { ffAdd := fun _ a b => a + b, ffMul := fun _ a b => a * b }

/-! ## C1: round-trip of `write_packed` with `get_number_view` -/

/-- C1.  The specified round-trip `get_number_view ∘ write_packed` fails on the
valid number `Natural(1, 65535)`: the u32-denominator branch of
`(u64, u64)::write_packed` emits a stray `3` byte that the reader then consumes
as the low byte of the denominator, so the view is `Natural(1, 16776963)` with
a leftover byte `0x00` instead of `Natural(1, 65535)` with an empty tail. -/
theorem c1_roundtrip_fails_at_den_u32 :
    (Number.write_packed encTrivial (Number.Natural 1 65535)).bind
        (get_number_view decTrivial) =
      some (BorrowedNumber.Natural 1 16776963, [0]) ∧
    (Number.Natural 1 65535).to_borrowed = BorrowedNumber.Natural 1 65535 ∧
    BorrowedNumber.Natural 1 16776963 ≠ BorrowedNumber.Natural 1 65535 := by
  refine ⟨by decide, rfl, by decide⟩

/-! ## C2: `write_packed` length versus `get_packed_size` -/

/-- C2.  The number of bytes `write_packed` appends does not equal
`get_packed_size` on the cases the claim singles out: for a Natural whose
denominator lies in `[65535, 2^32 - 1)` the writer emits one stray byte the
size does not count (7 versus 6); for a finite-field value `get_packed_size`
double-counts the inner tag (4 written versus 5 reported); and for any
negative component the size routine's plain `as u64` cast inflates the
reported width (3 written versus 10 reported for `Natural(-1, 2)`). -/
theorem c2_size_disagrees :
    (Number.write_packed encTrivial (Number.Natural 1 65535)).map List.length = some 7 ∧
    Number.get_packed_size (Number.Natural 1 65535) = 6 ∧
    (Number.write_packed encTrivial (Number.FiniteField 1 0)).map List.length = some 4 ∧
    Number.get_packed_size (Number.FiniteField 1 0) = 5 ∧
    (Number.write_packed encTrivial (Number.Natural (-1) 2)).map List.length = some 3 ∧
    Number.get_packed_size (Number.Natural (-1) 2) = 10 := by
  decide

/-! ## C4: the concrete encoding of `Natural(-1, 2)` -/

/-- C4 counterexample.  `write_packed(Natural(-1, 2))` yields
`[0x91, 0x01, 0x02]` (sign bit, u8 numerator kind, u8 denominator kind), not
the claimed `[0x81, 0x01, 0x02]`; and `get_frac_i64` on the claimed bytes
reads an implicit denominator `1` and leaves the byte `0x02` unread, returning
`(-1, 1, [0x02])` rather than `(-1, 2, [])`. -/
theorem c4_bytes_counterexample :
    write_packed_i64 (-1) 2 = some [0x91, 0x01, 0x02] ∧
    [0x91, 0x01, 0x02] ≠ [0x81, 0x01, 0x02] ∧
    get_frac_i64 [0x81, 0x01, 0x02] = some (-1, 1, [0x02]) := by
  decide

/-- C4 amended.  `write_packed(Natural(-1, 2))` appends exactly
`[0x91, 0x01, 0x02]`, and `get_frac_i64` applied to those three bytes returns
numerator `-1`, denominator `2`, and an empty remaining slice. -/
theorem c4_amended :
    write_packed_i64 (-1) 2 = some [0x91, 0x01, 0x02] ∧
    get_frac_i64 [0x91, 0x01, 0x02] = some (-1, 2, []) := by
  decide

/-! ## C5: `is_one_rat` -/

/-- C5 counterexample.  On the two-byte buffer `[0x01, 0x01]` the predicate
`is_one_rat` reads index 2, which is out of bounds, so the call panics
instead of returning `true`. -/
theorem c5_is_one_rat_counterexample :
    is_one_rat [0x01, 0x01] = none ∧ is_one_rat [0x01, 0x01] ≠ some true := by
  decide

/-- C5 amended.  `is_one_rat` inspects bytes 1 and 2 of the buffer (not the
discriminator at byte 0): it returns `true` exactly when both exist and equal
`0x01`; a buffer whose byte 1 differs from `1` yields `false`, and a buffer
ending before byte 2 is an out-of-bounds panic — in particular the plain
two-byte encoding `[0x01, 0x01]` of one. -/
theorem c5_is_one_rat_amended (l : List ℕ) :
    (is_one_rat l = some true ↔ l[1]? = some 1 ∧ l[2]? = some 1) ∧
    is_one_rat [0x01, 0x01] = none := by
  constructor
  · match l with
    | [] => simp [is_one_rat]
    | [a] => simp [is_one_rat]
    | [a, b] => by_cases hb : b = 1 <;> simp [is_one_rat, hb]
    | a :: b :: c :: t =>
      by_cases hb : b = 1
      · subst hb
        by_cases hc : c = 1 <;> simp [is_one_rat, hc]
      · simp [is_one_rat, hb]
  · decide

/-! ## C6: the abort threshold of `pow` -/

/-- C6 counterexample.  The claim requires exponent numerator `2^32 - 1` not
to be a fatal error, but `pow` guards with `n2 < u32::MAX`, so
`pow(Natural(2, 3), Natural(4294967295, 1))` aborts. -/
theorem c6_pow_threshold_counterexample :
    BorrowedNumber.pow stTrivial (.Natural 2 3) (.Natural 4294967295 1) = none := by
  decide

/-- A negative exponent inverts a zero-numerator base: the overflow fallback
then constructs `Rational::from((2^40, 0))`, which panics in `rug` on the
zero denominator, an abort already at exponent `2`. -/
theorem pow_zero_base_inversion_aborts :
    BorrowedNumber.pow stTrivial (.Natural 0 (2 ^ 40)) (.Natural (-2) 1) = none := by
  decide

/-- Helper: when the (possibly inverted) base has a nonzero denominator,
`pow_nat` aborts exactly when the non-negative exponent reaches
`u32::MAX = 2^32 - 1`.  (With a zero denominator the overflow fallback's
`Rational::from((bn, 0))` panics as well, so the hypothesis is needed.) -/
theorem pow_nat_eq_none_iff (bn bd e d2 : Int) (hbd : bd ≠ 0) :
    pow_nat bn bd e d2 = none ↔ (u32Max : Int) ≤ e := by
  unfold pow_nat
  by_cases h : e < (u32Max : Int)
  · have hr : ¬ ((u32Max : Int) ≤ e) := not_le.mpr h
    simp only [if_pos h, hr, iff_false]
    intro hc
    cases hpn : checked_pow bn e.toNat <;> cases hpd : checked_pow bd e.toNat <;>
      rw [hpn, hpd] at hc <;> simp [hbd] at hc
  · simp [if_neg h, not_lt.mp h]

/-- C6 amended.  On a Natural base `(n, d)` and Natural exponent `(e_n, e_d)`,
provided the base part that ends up as the denominator (the numerator `n`
when `e_n < 0` inverts the base, the denominator `d` otherwise) is nonzero,
`pow` aborts with a fatal error if and only if `e_n`, after negation when it
was negative, is at least `2^32 - 1` (the source guard is `n2 < u32::MAX`);
every such exponent strictly below `2^32 - 1` returns a result pair.  In
particular `e_n = 2^32 - 1` is a fatal error.  Without the proviso a second
abort exists below the threshold: inverting a zero-numerator base and
overflowing `checked_pow` reaches `Rational::from((n, 0))`, which panics. -/
theorem c6_pow_threshold_amended (st : State) (n1 d1 n2 d2 : Int)
    (hbd : (if n2 < 0 then n1 else d1) ≠ 0) :
    BorrowedNumber.pow st (.Natural n1 d1) (.Natural n2 d2) = none ↔
      (u32Max : Int) ≤ (if n2 < 0 then -n2 else n2) := by
  show (if n2 < 0 then pow_nat d1 n1 (-n2) d2 else pow_nat n1 d1 n2 d2) = none ↔ _
  by_cases h : n2 < 0
  · simp only [if_pos h] at hbd ⊢
    exact pow_nat_eq_none_iff d1 n1 (-n2) d2 hbd
  · simp only [if_neg h] at hbd ⊢
    exact pow_nat_eq_none_iff n1 d1 n2 d2 hbd

/-- C6 amended, witness: `pow(Natural(2, 3), Natural(3, 1))` has a nonzero
resulting denominator part and an exponent below the threshold, hence does
not abort. -/
theorem c6_pow_threshold_amended_witness :
    (if (3 : Int) < 0 then (2 : Int) else 3) ≠ 0 ∧
    BorrowedNumber.pow stTrivial (.Natural 2 3) (.Natural 3 1) ≠ none := by
  refine ⟨by decide, ?_⟩
  rw [Ne, c6_pow_threshold_amended stTrivial 2 3 3 1 (by decide)]
  decide

/-! ## C7: normalization -/

/-- C7 counterexample.  With `gcd_signed` the non-negative gcd of the absolute
values (spec §4.1), `normalize(Natural(1, -2))` divides both parts by `1` and
returns `Natural(1, -2)`, whose denominator is not `≥ 1`. -/
theorem c7_normalize_counterexample :
    BorrowedNumber.normalize (.Natural 1 (-2)) = Number.Natural 1 (-2) ∧
    ¬ (1 ≤ (-2 : Int)) := by
  decide

/-- Sign is preserved by exact division by a positive divisor. -/
theorem sign_tdiv_of_dvd {n g : Int} (hg : 0 < g) (hdvd : g ∣ n) :
    (n.tdiv g).sign = n.sign := by
  obtain ⟨a, rfl⟩ := hdvd
  rw [Int.mul_tdiv_cancel_left _ (ne_of_gt hg), Int.sign_mul,
    Int.sign_eq_one_of_pos hg, one_mul]

/-- Exact division of both parts of a fraction by a common nonzero divisor
preserves the rational value. -/
theorem ratN_tdiv_tdiv {n d g : Int} (hg : g ≠ 0) (hn : g ∣ n) (hd : g ∣ d) :
    ratN (n.tdiv g) (d.tdiv g) = ratN n d := by
  obtain ⟨a, rfl⟩ := hn
  obtain ⟨b, rfl⟩ := hd
  rw [Int.mul_tdiv_cancel_left _ hg, Int.mul_tdiv_cancel_left _ hg]
  unfold ratN
  push_cast
  rw [mul_div_mul_left _ _ (by exact_mod_cast hg)]

/-- C7 amended.  For every `Natural(n, d)` with `d ≥ 1`, `normalize` returns a
`Natural` with the same rational value whose denominator is `≥ 1`, whose parts
are coprime in absolute value, and whose numerator has the sign of the
original value `n / d`.  (For `d < 0` the counterexample shows normalization
leaves the denominator negative.) -/
theorem c7_normalize_amended (n d : Int) (hd : 1 ≤ d) :
    ∃ n' d', BorrowedNumber.normalize (.Natural n d) = Number.Natural n' d' ∧
      1 ≤ d' ∧ Int.gcd n' d' = 1 ∧ n'.sign = n.sign ∧ ratN n' d' = ratN n d := by
  have hd0 : d ≠ 0 := by omega
  have hG : 0 < Int.gcd n d := Int.gcd_pos_of_ne_zero_right n hd0
  have hgeq : gcd_signed n d = (Int.gcd n d : Int) := rfl
  have h1 : (n.tdiv (gcd_signed n d)).natAbs = n.natAbs / Int.gcd n d := by
    rw [hgeq, Int.natAbs_tdiv, Int.natAbs_ofNat]
    rfl
  have h2 : (d.tdiv (gcd_signed n d)).natAbs = d.natAbs / Int.gcd n d := by
    rw [hgeq, Int.natAbs_tdiv, Int.natAbs_ofNat]
    rfl
  set g : Int := gcd_signed n d with hgdef
  have hgpos : 0 < g := by rw [hgeq]; exact_mod_cast hG
  have hGn : g ∣ n := by rw [hgeq]; exact Int.gcd_dvd_left
  have hGd : g ∣ d := by rw [hgeq]; exact Int.gcd_dvd_right
  refine ⟨n.tdiv g, d.tdiv g, rfl, ?_, ?_, ?_, ?_⟩
  · obtain ⟨b, hb⟩ := hGd
    have hb1 : 1 ≤ b := by nlinarith [hb ▸ hd, hgpos]
    rw [hb, Int.mul_tdiv_cancel_left _ (ne_of_gt hgpos)]
    exact hb1
  · show Nat.gcd _ _ = 1
    rw [h1, h2]
    exact Nat.coprime_div_gcd_div_gcd hG
  · exact sign_tdiv_of_dvd hgpos hGn
  · exact ratN_tdiv_tdiv (ne_of_gt hgpos) hGn hGd

/-- C7 witness: `normalize(Natural(6, 4)) = Natural(3, 2)` satisfies the
amended properties. -/
theorem c7_normalize_witness :
    (1 : Int) ≤ 4 ∧
    ∃ n' d', BorrowedNumber.normalize (.Natural 6 4) = Number.Natural n' d' ∧
      1 ≤ d' ∧ Int.gcd n' d' = 1 ∧ n'.sign = (6 : Int).sign ∧ ratN n' d' = ratN 6 4 :=
  ⟨by decide, c7_normalize_amended 6 4 (by decide)⟩

/-! ## C10: the absolute-value conversion in the `(i64, i64)` writer -/

/-- Within the `i64` range, `abs` overflows exactly at `i64::MIN`. -/
theorem checked_abs_none_iff {x : Int} (hx : inI64 x) : checked_abs x = none ↔ x = i64Min := by
  unfold checked_abs
  unfold inI64 i64Min i64Max at hx ⊢
  rcases abs_cases x with ⟨h1, h2⟩ | ⟨h1, h2⟩ <;> rw [h1] <;> split <;> rename_i hcond <;>
    simp only [reduceCtorEq, false_iff] <;> try simp only [true_iff]
  all_goals omega

/-- C10.  `write_packed` on `Natural(n, d)` takes the `i64` absolute value of
both parts before encoding; for every `n ≠ i64::MIN` and `d ≠ i64::MIN` the
conversion cannot overflow and a run is produced, while a part equal to
`i64::MIN` (magnitude `2^63`) makes the conversion abort. -/
theorem c10_abs_conversion (n d : Int) (hn : inI64 n) (hd : inI64 d) :
    write_packed_i64 n d = none ↔ (n = i64Min ∨ d = i64Min) := by
  have hn' := checked_abs_none_iff hn
  have hd' := checked_abs_none_iff hd
  unfold write_packed_i64
  rcases h1 : checked_abs n with _ | na <;> rcases h2 : checked_abs d with _ | da <;>
    rw [h1] at hn' <;> rw [h2] at hd' <;> simp_all

/-- C10 witness: at `n = 1, d = 2` the conversion succeeds. -/
theorem c10_abs_conversion_witness :
    inI64 1 ∧ inI64 2 ∧
      (write_packed_i64 1 2 = none ↔ ((1 : Int) = i64Min ∨ (2 : Int) = i64Min)) :=
  ⟨by decide, by decide, c10_abs_conversion 1 2 (by decide) (by decide)⟩

/-! ## C3: exactness and variant choice of Natural `add`/`mul` -/

/-- The canonical form of a rational fits signed 64 bits: numerator in
`[i64::MIN, i64::MAX]` and (positive) denominator at most `i64::MAX`. -/
def fitsI64 (q : ℚ) : Prop :=
  i64Min ≤ q.num ∧ q.num ≤ i64Max ∧ (q.den : Int) ≤ i64Max

instance (q : ℚ) : Decidable (fitsI64 q) :=
  inferInstanceAs (Decidable (_ ∧ _ ∧ _))

theorem checked_mul_some {a b c : Int} (h : checked_mul a b = some c) :
    c = a * b ∧ inI64 c := by
  unfold checked_mul at h
  split at h
  · cases h
    exact ⟨rfl, by assumption⟩
  · cases h

theorem checked_add_some {a b c : Int} (h : checked_add a b = some c) :
    c = a + b ∧ inI64 c := by
  unfold checked_add at h
  split at h
  · cases h
    exact ⟨rfl, by assumption⟩
  · cases h

/-- Exact division by a positive divisor stays in the `i64` range. -/
theorem tdiv_inI64 {x g : Int} (hg : 0 < g) (hdvd : g ∣ x) (hin : inI64 x) :
    inI64 (x.tdiv g) := by
  obtain ⟨c, rfl⟩ := hdvd
  rw [Int.mul_tdiv_cancel_left _ hg.ne']
  have hg1 : (1 : Int) ≤ g := hg
  rcases le_or_lt 0 c with hc | hc
  · have h1 : c ≤ g * c := le_mul_of_one_le_left hc hg1
    unfold inI64 i64Min i64Max at *
    omega
  · have h1 : g * c ≤ 1 * c := mul_le_mul_of_nonpos_right hg1 hc.le
    rw [one_mul] at h1
    unfold inI64 i64Min i64Max at *
    omega

/-- Exact division of a positive value by a positive divisor is positive. -/
theorem one_le_tdiv_of_dvd {d g : Int} (hd : 1 ≤ d) (hg : 0 < g) (hdvd : g ∣ d) :
    1 ≤ d.tdiv g := by
  obtain ⟨c, rfl⟩ := hdvd
  rw [Int.mul_tdiv_cancel_left _ hg.ne']
  nlinarith

/-- A fraction with a positive denominator bounded by `i64::MAX` and an
`i64`-range numerator has an `i64`-fitting canonical form. -/
theorem fitsI64_ratN {p q : Int} (hq1 : 1 ≤ q) (hq2 : q ≤ i64Max)
    (hp1 : i64Min ≤ p) (hp2 : p ≤ i64Max) : fitsI64 (ratN p q) := by
  have hq0 : q ≠ 0 := by omega
  have hveq : ratN p q = Rat.divInt p q := by rw [Rat.divInt_eq_div]; rfl
  rw [hveq]
  have hnum : (Rat.divInt p q).num ∣ p := Rat.num_dvd p hq0
  have hden : ((Rat.divInt p q).den : Int) ∣ q := Rat.den_dvd p q
  have hden_le : ((Rat.divInt p q).den : Int) ≤ i64Max :=
    le_trans (Int.le_of_dvd (by omega) hden) hq2
  have hqpos : (0 : ℚ) < (q : ℚ) := by exact_mod_cast (by omega : (0 : Int) < q)
  have hMin_neg : i64Min ≤ 0 := by decide
  have hMax_pos : (0 : Int) ≤ i64Max := by decide
  rcases lt_trichotomy p 0 with hp | hp | hp
  · -- negative numerator
    have hvneg : (Rat.divInt p q) < 0 := by
      rw [Rat.divInt_eq_div]
      exact div_neg_of_neg_of_pos (by exact_mod_cast hp) hqpos
    have hnn : (Rat.divInt p q).num ≤ 0 := by
      by_contra hcon
      exact absurd (Rat.num_nonneg.mp (by omega)) (not_le.mpr hvneg)
    have habs : (Rat.divInt p q).num.natAbs ≤ p.natAbs :=
      Nat.le_of_dvd (by omega) (Int.natAbs_dvd_natAbs.mpr hnum)
    exact ⟨by omega, by omega, hden_le⟩
  · -- zero numerator
    subst hp
    rw [Rat.zero_divInt]
    exact ⟨by decide, by decide, by decide⟩
  · -- positive numerator
    have hvpos : (0 : ℚ) ≤ (Rat.divInt p q) := by
      rw [Rat.divInt_eq_div]
      exact div_nonneg (by exact_mod_cast hp.le) hqpos.le
    have hnn : 0 ≤ (Rat.divInt p q).num := Rat.num_nonneg.mpr hvpos
    have hle : (Rat.divInt p q).num ≤ p := Int.le_of_dvd hp hnum
    exact ⟨by omega, by omega, hden_le⟩

/-- The exact value identity behind the Natural `add` fast path. -/
theorem ratN_add_split (n1 n2 g a b : Int) (hg : g ≠ 0) (ha : a ≠ 0) (hb : b ≠ 0) :
    ratN (n1 * b + n2 * a) (g * b * a) = ratN n1 (g * a) + ratN n2 (g * b) := by
  unfold ratN
  have hg' : (g : ℚ) ≠ 0 := by exact_mod_cast hg
  have ha' : (a : ℚ) ≠ 0 := by exact_mod_cast ha
  have hb' : (b : ℚ) ≠ 0 := by exact_mod_cast hb
  push_cast
  field_simp
  ring

/-- The exact value identity behind the Natural `mul` cross-cancellation. -/
theorem ratN_mul_split (a1 b1 a2 b2 g1 g2 : Int) (hg1 : g1 ≠ 0) (hg2 : g2 ≠ 0)
    (hb1 : b1 ≠ 0) (ha2 : a2 ≠ 0) :
    ratN (b2 * a1) (a2 * b1) = ratN (g1 * a1) (g2 * a2) * ratN (g2 * b2) (g1 * b1) := by
  unfold ratN
  have hg1' : (g1 : ℚ) ≠ 0 := by exact_mod_cast hg1
  have hg2' : (g2 : ℚ) ≠ 0 := by exact_mod_cast hg2
  have hb1' : (b1 : ℚ) ≠ 0 := by exact_mod_cast hb1
  have ha2' : (a2 : ℚ) ≠ 0 := by exact_mod_cast ha2
  push_cast
  field_simp
  ring

theorem gcd_signed_pos_right {b : Int} (a : Int) (hb : b ≠ 0) : 0 < gcd_signed a b := by
  show (0 : Int) < (Int.gcd a b : ℕ)
  exact_mod_cast Int.gcd_pos_of_ne_zero_right a hb

theorem gcd_signed_pos_left {a : Int} (ha : a ≠ 0) (b : Int) : 0 < gcd_signed a b := by
  show (0 : Int) < (Int.gcd a b : ℕ)
  exact_mod_cast Int.gcd_pos_of_ne_zero_left b ha

theorem gcd_signed_dvd_left (a b : Int) : gcd_signed a b ∣ a := Int.gcd_dvd_left

theorem gcd_signed_dvd_right (a b : Int) : gcd_signed a b ∣ b := Int.gcd_dvd_right

/-- C3 counterexample.  For the canonical operands `Natural(2^62 + 1, 2)` the
exact sum `2^62 + 1` is an integer fitting comfortably in signed 64 bits, yet
`add` returns it in the `Large` variant: the scaled numerators overflow
`checked_add` before the final reduction.  So the variant choice does not
depend only on whether the canonical result fits in signed 64-bit. -/
theorem c3_variant_counterexample :
    BorrowedNumber.add stTrivial (.Natural (2 ^ 62 + 1) 2) (.Natural (2 ^ 62 + 1) 2) =
      some (Number.Large (ratN (2 ^ 62 + 1) 2 + ratN (2 ^ 62 + 1) 2)) ∧
    ratN (2 ^ 62 + 1) 2 + ratN (2 ^ 62 + 1) 2 = (((2 ^ 62 + 1 : Int) : ℚ)) ∧
    fitsI64 (((2 ^ 62 + 1 : Int) : ℚ)) ∧
    ∀ p q : Int, ∀ r : ℚ, Number.Large r ≠ Number.Natural p q := by
  refine ⟨rfl, ?_, ?_, fun p q r h => Number.noConfusion h⟩
  · unfold ratN
    push_cast
    ring_nf
  · unfold fitsI64
    rw [Rat.num_intCast, Rat.den_intCast]
    refine ⟨by decide, by decide, by decide⟩

/-- C3 amended.  For Natural operands with positive denominators, `add` and
`mul` return the exact arbitrary-precision sum and product when lifted to
rationals, and whenever the result comes back in the `Natural` variant the
canonical reduced result fits in signed 64-bit.  The converse direction of
the original claim is false (see the counterexample): a canonical result that
fits may still be returned as `Large`. -/
theorem c3_add_mul_exact (st : State) (n1 d1 n2 d2 : Int)
    (hd1 : 1 ≤ d1) (hd2 : 1 ≤ d2) :
    (∃ r, BorrowedNumber.add st (.Natural n1 d1) (.Natural n2 d2) = some r ∧
      r.value = ratN n1 d1 + ratN n2 d2 ∧
      (∀ p q, r = Number.Natural p q → fitsI64 r.value)) ∧
    (∃ r, BorrowedNumber.mul st (.Natural n1 d1) (.Natural n2 d2) = some r ∧
      r.value = ratN n1 d1 * ratN n2 d2 ∧
      (∀ p q, r = Number.Natural p q → fitsI64 r.value)) := by
  have hd1z : d1 ≠ 0 := by omega
  have hd2z : d2 ≠ 0 := by omega
  constructor
  · -- addition
    simp only [BorrowedNumber.add]
    set G : Int := gcd_signed d1 d2 with hGdef
    have hg : 0 < G := gcd_signed_pos_right d1 hd2z
    obtain ⟨a, ha⟩ : G ∣ d1 := gcd_signed_dvd_left d1 d2
    obtain ⟨b, hb⟩ : G ∣ d2 := gcd_signed_dvd_right d1 d2
    have htd1 : d1.tdiv G = a := by
      rw [ha, Int.mul_tdiv_cancel_left _ hg.ne']
    have ha1 : 1 ≤ a := by nlinarith [ha ▸ hd1]
    have hb1 : 1 ≤ b := by nlinarith [hb ▸ hd2]
    split
    · -- lcm computed without overflow
      rename_i lcm hL
      obtain ⟨hlcm_eq, hlcm_in⟩ := checked_mul_some hL
      rw [htd1] at hlcm_eq
      have hlcm1 : 1 ≤ lcm := by nlinarith [hlcm_eq, hd2, ha1]
      have hlcm_d2 : lcm.tdiv d2 = a := by
        rw [hlcm_eq, Int.mul_tdiv_cancel_left _ hd2z]
      have hlcm_d1 : lcm.tdiv d1 = b := by
        have h : lcm = d1 * b := by rw [hlcm_eq, ha, hb]; ring
        rw [h, Int.mul_tdiv_cancel_left _ hd1z]
      split
      · -- both scaled numerators computed
        rename_i num2 num1 hN2 hN1
        obtain ⟨hnum2, _⟩ := checked_mul_some hN2
        obtain ⟨hnum1, _⟩ := checked_mul_some hN1
        rw [hlcm_d2] at hnum2
        rw [hlcm_d1] at hnum1
        split
        · -- the sum fits: Natural result
          rename_i num hS
          obtain ⟨hnum, hnum_in⟩ := checked_add_some hS
          have hg' : 0 < gcd_signed num lcm :=
            gcd_signed_pos_right num (by omega : lcm ≠ 0)
          have hg'n : gcd_signed num lcm ∣ num := gcd_signed_dvd_left num lcm
          have hg'l : gcd_signed num lcm ∣ lcm := gcd_signed_dvd_right num lcm
          refine ⟨_, rfl, ?_, ?_⟩
          · show ratN (num.tdiv (gcd_signed num lcm)) (lcm.tdiv (gcd_signed num lcm)) = _
            rw [ratN_tdiv_tdiv hg'.ne' hg'n hg'l]
            have hnum' : num = n1 * b + n2 * a := by rw [hnum, hnum1, hnum2]
            have hlcm' : lcm = G * b * a := by rw [hlcm_eq, hb]
            rw [hnum', hlcm', ha, hb]
            exact ratN_add_split n1 n2 G a b hg.ne' (by omega) (by omega)
          · intro p q _
            show fitsI64 (ratN (num.tdiv (gcd_signed num lcm)) (lcm.tdiv (gcd_signed num lcm)))
            have hq := tdiv_inI64 hg' hg'l hlcm_in
            have hp := tdiv_inI64 hg' hg'n hnum_in
            exact fitsI64_ratN (one_le_tdiv_of_dvd hlcm1 hg' hg'l) hq.2 hp.1 hp.2
        · -- the sum overflows: Large result
          exact ⟨_, rfl, rfl, fun p q h => Number.noConfusion h⟩
      · -- a scaled numerator overflows: Large result
        exact ⟨_, rfl, rfl, fun p q h => Number.noConfusion h⟩
    · -- the lcm overflows: Large result
      exact ⟨_, rfl, rfl, fun p q h => Number.noConfusion h⟩
  · -- multiplication
    simp only [BorrowedNumber.mul]
    set G1 : Int := gcd_signed n1 d2 with hG1def
    set G2 : Int := gcd_signed d1 n2 with hG2def
    have hg1 : 0 < G1 := gcd_signed_pos_right n1 hd2z
    have hg2 : 0 < G2 := gcd_signed_pos_left hd1z n2
    obtain ⟨a1, ha1⟩ : G1 ∣ n1 := gcd_signed_dvd_left n1 d2
    obtain ⟨b1, hb1⟩ : G1 ∣ d2 := gcd_signed_dvd_right n1 d2
    obtain ⟨a2, ha2⟩ : G2 ∣ d1 := gcd_signed_dvd_left d1 n2
    obtain ⟨b2, hb2⟩ : G2 ∣ n2 := gcd_signed_dvd_right d1 n2
    have ht1 : n1.tdiv G1 = a1 := by
      rw [ha1, Int.mul_tdiv_cancel_left _ hg1.ne']
    have ht2 : d2.tdiv G1 = b1 := by
      rw [hb1, Int.mul_tdiv_cancel_left _ hg1.ne']
    have ht3 : d1.tdiv G2 = a2 := by
      rw [ha2, Int.mul_tdiv_cancel_left _ hg2.ne']
    have ht4 : n2.tdiv G2 = b2 := by
      rw [hb2, Int.mul_tdiv_cancel_left _ hg2.ne']
    have ha2one : 1 ≤ a2 := by nlinarith [ha2 ▸ hd1]
    have hb1one : 1 ≤ b1 := by nlinarith [hb1 ▸ hd2]
    have hval : ratN (b2 * a1) (a2 * b1) = ratN n1 d1 * ratN n2 d2 := by
      rw [ha1, hb1, ha2, hb2]
      exact ratN_mul_split a1 b1 a2 b2 G1 G2 hg1.ne' hg2.ne' (by omega) (by omega)
    split
    · -- the cross-cancelled numerator fits
      rename_i nn hM1
      obtain ⟨hnn, hnn_in⟩ := checked_mul_some hM1
      rw [ht4, ht1] at hnn
      split
      · -- the denominator fits too: Natural result
        rename_i nd hM2
        obtain ⟨hnd, hnd_in⟩ := checked_mul_some hM2
        rw [ht3, ht2] at hnd
        refine ⟨_, rfl, ?_, ?_⟩
        · show ratN nn nd = _
          rw [hnn, hnd]
          exact hval
        · intro p q _
          show fitsI64 (ratN nn nd)
          have hnd1 : 1 ≤ nd := by rw [hnd]; nlinarith
          exact fitsI64_ratN hnd1 hnd_in.2 hnn_in.1 hnn_in.2
      · -- denominator overflow: Large with the exact value
        refine ⟨_, rfl, ?_, fun p q h => Number.noConfusion h⟩
        show ((nn : Int) : ℚ) / ((d1.tdiv G2 * d2.tdiv G1 : Int) : ℚ) = _
        rw [ht2, ht3, hnn]
        exact hval
    · -- numerator overflow: Large with the exact value
      refine ⟨_, rfl, ?_, fun p q h => Number.noConfusion h⟩
      show ((n1.tdiv G1 * n2.tdiv G2 : Int) : ℚ) / ((d1.tdiv G2 * d2.tdiv G1 : Int) : ℚ) = _
      rw [ht1, ht2, ht3, ht4]
      calc ((a1 * b2 : Int) : ℚ) / ((a2 * b1 : Int) : ℚ)
          = ratN (b2 * a1) (a2 * b1) := by unfold ratN; rw [show a1 * b2 = b2 * a1 by ring]
        _ = ratN n1 d1 * ratN n2 d2 := hval

/-- C3 witness: `add(Natural(1, 2), Natural(1, 3))` and
`mul(Natural(1, 2), Natural(1, 3))` are exact and fit. -/
theorem c3_add_mul_exact_witness :
    (1 : Int) ≤ 2 ∧ (1 : Int) ≤ 3 ∧
    ((∃ r, BorrowedNumber.add stTrivial (.Natural 1 2) (.Natural 1 3) = some r ∧
      r.value = ratN 1 2 + ratN 1 3 ∧
      (∀ p q, r = Number.Natural p q → fitsI64 r.value)) ∧
    (∃ r, BorrowedNumber.mul stTrivial (.Natural 1 2) (.Natural 1 3) = some r ∧
      r.value = ratN 1 2 * ratN 1 3 ∧
      (∀ p q, r = Number.Natural p q → fitsI64 r.value))) :=
  ⟨by decide, by decide, c3_add_mul_exact stTrivial 1 2 1 3 (by decide) (by decide)⟩

/-! ## C9: commutativity of `add` and `mul` on Natural/Large operands -/

/-- The operand is not a finite-field element. -/
def noFF : BorrowedNumber → Prop
  | .FiniteField _ _ => False
  | _ => True

instance (x : BorrowedNumber) : Decidable (noFF x) := by
  unfold noFF
  cases x <;> infer_instance

/-- A Natural operand has a nonzero denominator (data-model invariant). -/
def denOK : BorrowedNumber → Prop
  | .Natural _ d => d ≠ 0
  | _ => True

instance (x : BorrowedNumber) : Decidable (denOK x) := by
  unfold denOK
  cases x <;> infer_instance

theorem gcd_signed_comm (a b : Int) : gcd_signed a b = gcd_signed b a := by
  unfold gcd_signed
  rw [Int.gcd_comm]

theorem checked_mul_comm (a b : Int) : checked_mul a b = checked_mul b a := by
  unfold checked_mul
  rw [Int.mul_comm]

theorem checked_add_comm (a b : Int) : checked_add a b = checked_add b a := by
  unfold checked_add
  rw [Int.add_comm]

/-- C9.  For operands that are each Natural (with nonzero denominator) or
Large, `add` and `mul` are commutative, returning identical `Number` results
including the variant choice. -/
theorem c9_add_mul_comm (st : State) (x y : BorrowedNumber)
    (hx : noFF x) (hy : noFF y) (hdx : denOK x) (hdy : denOK y) :
    BorrowedNumber.add st x y = BorrowedNumber.add st y x ∧
    BorrowedNumber.mul st x y = BorrowedNumber.mul st y x := by
  cases x with
  | FiniteField e i => exact hx.elim
  | Large r1 =>
    cases y with
    | FiniteField e i => exact hy.elim
    | Natural n2 d2 => exact ⟨rfl, rfl⟩
    | Large r2 =>
      constructor
      · simp only [BorrowedNumber.add]
        rw [add_comm]
      · simp only [BorrowedNumber.mul]
        rw [mul_comm]
  | Natural n1 d1 =>
    cases y with
    | FiniteField e i => exact hy.elim
    | Large r2 => exact ⟨rfl, rfl⟩
    | Natural n2 d2 =>
      have hd1 : d1 ≠ 0 := hdx
      have hd2 : d2 ≠ 0 := hdy
      constructor
      · -- additive commutativity
        simp only [BorrowedNumber.add]
        rw [gcd_signed_comm d2 d1]
        set G : Int := gcd_signed d1 d2 with hGdef
        have hg : 0 < G := gcd_signed_pos_right d1 hd2
        obtain ⟨a, ha⟩ : G ∣ d1 := gcd_signed_dvd_left d1 d2
        obtain ⟨b, hb⟩ : G ∣ d2 := gcd_signed_dvd_right d1 d2
        have hswap : d2 * d1.tdiv G = d1 * d2.tdiv G := by
          have h1 : d1.tdiv G = a := by rw [ha, Int.mul_tdiv_cancel_left _ hg.ne']
          have h2 : d2.tdiv G = b := by rw [hb, Int.mul_tdiv_cancel_left _ hg.ne']
          rw [h1, h2, ha, hb]
          ring
        have hA : checked_mul d2 (d1.tdiv G) = checked_mul d1 (d2.tdiv G) := by
          unfold checked_mul
          rw [hswap]
        rw [hA]
        cases ho : checked_mul d1 (d2.tdiv G) with
        | none => simp [add_comm]
        | some lcm =>
          dsimp only
          cases h2 : checked_mul n2 (lcm.tdiv d2) with
          | none => cases h1 : checked_mul n1 (lcm.tdiv d1) <;> simp [add_comm]
          | some x2 =>
            cases h1 : checked_mul n1 (lcm.tdiv d1) with
            | none => simp [add_comm]
            | some x1 =>
              dsimp only
              rw [checked_add_comm x1 x2]
              cases hs : checked_add x2 x1 <;> simp [add_comm]
      · -- multiplicative commutativity
        simp only [BorrowedNumber.mul]
        rw [gcd_signed_comm d2 n1, gcd_signed_comm n2 d1,
          checked_mul_comm (n1.tdiv (gcd_signed n1 d2)) (n2.tdiv (gcd_signed d1 n2))]
        cases ho : checked_mul (n2.tdiv (gcd_signed d1 n2)) (n1.tdiv (gcd_signed n1 d2)) with
        | none => simp [Int.mul_comm]
        | some nn =>
          dsimp only
          rw [checked_mul_comm (d2.tdiv (gcd_signed n1 d2)) (d1.tdiv (gcd_signed d1 n2))]
          cases h2 : checked_mul (d1.tdiv (gcd_signed d1 n2)) (d2.tdiv (gcd_signed n1 d2)) <;>
            simp [Int.mul_comm]

/-- C9 witness at concrete operands. -/
theorem c9_add_mul_comm_witness :
    noFF (.Natural (-7) 6) ∧ noFF (.Natural 5 4) ∧
    denOK (.Natural (-7) 6) ∧ denOK (.Natural 5 4) ∧
    (BorrowedNumber.add stTrivial (.Natural (-7) 6) (.Natural 5 4) =
        BorrowedNumber.add stTrivial (.Natural 5 4) (.Natural (-7) 6) ∧
      BorrowedNumber.mul stTrivial (.Natural (-7) 6) (.Natural 5 4) =
        BorrowedNumber.mul stTrivial (.Natural 5 4) (.Natural (-7) 6)) :=
  ⟨trivial, trivial, by decide, by decide,
    c9_add_mul_comm stTrivial (.Natural (-7) 6) (.Natural 5 4) trivial trivial
      (by decide) (by decide)⟩

/-! ## C8: skip agreement with the view -/

/-- Reading exactly the bytes of `p` off `p ++ rest`. -/
theorem readLE_exact (w : ℕ) (p rest : List ℕ) (h : p.length = w) :
    readLE w (p ++ rest) = some (leVal p, rest) := by
  subst h
  unfold readLE
  rw [if_pos (by simp), List.take_left, List.drop_left]

/-- Advancing exactly over `p` in `p ++ T`. -/
theorem advance_exact (k : ℕ) (p T : List ℕ) (h : p.length = k) :
    advance k (p ++ T) = some T := by
  subst h
  unfold advance
  rw [if_pos (by simp), List.drop_left]

/-- One well-formed packed run (spec §6): a Natural run with legal NUM/DEN
width codes and exactly the payload bytes those codes describe, a
finite-field run (`FIN_NUM` discriminator followed by an inner unsigned-pair
run), or an arbitrary-precision run (`ARB_NUM` discriminator followed by the
`ratSize` raw object bytes). -/
inductive WFRun : List ℕ → Prop where
  | nat (disc : ℕ) (np dp : List ℕ)
      (hnum : disc &&& NUM_MASK = U8_NUM ∧ np.length = 1 ∨
              disc &&& NUM_MASK = U16_NUM ∧ np.length = 2 ∨
              disc &&& NUM_MASK = U32_NUM ∧ np.length = 4 ∨
              disc &&& NUM_MASK = U64_NUM ∧ np.length = 8)
      (hden : disc &&& DEN_MASK = 0 ∧ dp.length = 0 ∨
              disc &&& DEN_MASK = U8_DEN ∧ dp.length = 1 ∨
              disc &&& DEN_MASK = U16_DEN ∧ dp.length = 2 ∨
              disc &&& DEN_MASK = U32_DEN ∧ dp.length = 4 ∨
              disc &&& DEN_MASK = U64_DEN ∧ dp.length = 8) :
      WFRun (disc :: (np ++ dp))
  | fin (disc disc2 : ℕ) (np dp : List ℕ)
      (hfin : disc &&& NUM_MASK = FIN_NUM)
      (hnum : disc2 &&& NUM_MASK = U8_NUM ∧ np.length = 1 ∨
              disc2 &&& NUM_MASK = U16_NUM ∧ np.length = 2 ∨
              disc2 &&& NUM_MASK = U32_NUM ∧ np.length = 4 ∨
              disc2 &&& NUM_MASK = U64_NUM ∧ np.length = 8)
      (hden : disc2 &&& DEN_MASK = 0 ∧ dp.length = 0 ∨
              disc2 &&& DEN_MASK = U8_DEN ∧ dp.length = 1 ∨
              disc2 &&& DEN_MASK = U16_DEN ∧ dp.length = 2 ∨
              disc2 &&& DEN_MASK = U32_DEN ∧ dp.length = 4 ∨
              disc2 &&& DEN_MASK = U64_DEN ∧ dp.length = 8) :
      WFRun (disc :: disc2 :: (np ++ dp))
  | arb (disc : ℕ) (payload : List ℕ)
      (harb : disc &&& NUM_MASK = ARB_NUM)
      (hlen : payload.length = ratSize) :
      WFRun (disc :: payload)

theorem readNumField_exact {c : ℕ} (np rest : List ℕ)
    (hc : c = U8_NUM ∧ np.length = 1 ∨ c = U16_NUM ∧ np.length = 2 ∨
          c = U32_NUM ∧ np.length = 4 ∨ c = U64_NUM ∧ np.length = 8) :
    readNumField c (np ++ rest) = some (leVal np, rest) := by
  rcases hc with ⟨rfl, hl⟩ | ⟨rfl, hl⟩ | ⟨rfl, hl⟩ | ⟨rfl, hl⟩ <;>
    exact readLE_exact _ _ _ hl

theorem readDenField_exact {c : ℕ} (dp rest : List ℕ)
    (hc : c = 0 ∧ dp.length = 0 ∨ c = U8_DEN ∧ dp.length = 1 ∨
          c = U16_DEN ∧ dp.length = 2 ∨ c = U32_DEN ∧ dp.length = 4 ∨
          c = U64_DEN ∧ dp.length = 8) :
    ∃ v, readDenField c (dp ++ rest) = some (v, rest) := by
  rcases hc with ⟨rfl, hl⟩ | ⟨rfl, hl⟩ | ⟨rfl, hl⟩ | ⟨rfl, hl⟩ | ⟨rfl, hl⟩
  · obtain rfl : dp = [] := List.eq_nil_of_length_eq_zero hl
    exact ⟨1, rfl⟩
  all_goals exact ⟨_, readLE_exact _ _ _ hl⟩

theorem get_frac_i64_run (disc : ℕ) (np dp rest : List ℕ)
    (hnum : disc &&& NUM_MASK = U8_NUM ∧ np.length = 1 ∨
            disc &&& NUM_MASK = U16_NUM ∧ np.length = 2 ∨
            disc &&& NUM_MASK = U32_NUM ∧ np.length = 4 ∨
            disc &&& NUM_MASK = U64_NUM ∧ np.length = 8)
    (hden : disc &&& DEN_MASK = 0 ∧ dp.length = 0 ∨
            disc &&& DEN_MASK = U8_DEN ∧ dp.length = 1 ∨
            disc &&& DEN_MASK = U16_DEN ∧ dp.length = 2 ∨
            disc &&& DEN_MASK = U32_DEN ∧ dp.length = 4 ∨
            disc &&& DEN_MASK = U64_DEN ∧ dp.length = 8)
    (hok : ¬ (disc &&& NUM_MASK = U64_NUM ∧ disc &&& SIGN ≠ 0 ∧
            leVal np = 2 ^ 63)) :
    ∃ n d, get_frac_i64 (disc :: (np ++ (dp ++ rest))) = some (n, d, rest) := by
  have hn := readNumField_exact np (dp ++ rest) hnum
  obtain ⟨v, hd⟩ := readDenField_exact dp rest hden
  simp only [get_frac_i64, hn, hd]
  by_cases hs : disc &&& SIGN ≠ 0
  · rw [if_pos hs]
    by_cases hU : disc &&& NUM_MASK = U64_NUM
    · rw [if_pos hU]
      have hv : leVal np ≠ 2 ^ 63 := fun hv => hok ⟨hU, hs, hv⟩
      have hne : toI64 (leVal np) ≠ i64Min := by
        unfold toI64 i64Min
        split <;> omega
      rw [if_neg hne]
      exact ⟨_, _, rfl⟩
    · rw [if_neg hU]
      have hne : ((leVal np : ℕ) : Int) ≠ i64Min := by
        unfold i64Min
        omega
      rw [if_neg hne]
      exact ⟨_, _, rfl⟩
  · rw [if_neg hs]
    exact ⟨_, _, rfl⟩

theorem get_frac_u64_run (disc : ℕ) (np dp rest : List ℕ)
    (hnum : disc &&& NUM_MASK = U8_NUM ∧ np.length = 1 ∨
            disc &&& NUM_MASK = U16_NUM ∧ np.length = 2 ∨
            disc &&& NUM_MASK = U32_NUM ∧ np.length = 4 ∨
            disc &&& NUM_MASK = U64_NUM ∧ np.length = 8)
    (hden : disc &&& DEN_MASK = 0 ∧ dp.length = 0 ∨
            disc &&& DEN_MASK = U8_DEN ∧ dp.length = 1 ∨
            disc &&& DEN_MASK = U16_DEN ∧ dp.length = 2 ∨
            disc &&& DEN_MASK = U32_DEN ∧ dp.length = 4 ∨
            disc &&& DEN_MASK = U64_DEN ∧ dp.length = 8) :
    ∃ n d, get_frac_u64 (disc :: (np ++ (dp ++ rest))) = some (n, d, rest) := by
  have hn := readNumField_exact np (dp ++ rest) hnum
  obtain ⟨v, hd⟩ := readDenField_exact dp rest hden
  refine ⟨leVal np, v, ?_⟩
  simp only [get_frac_u64, hn, hd]

/-- C8 counterexample.  The run `[0x84, 0, 0, 0, 0, 0, 0, 0, 0x80]` — sign
bit with a u64-width numerator whose payload is `2^63` and an implicit
denominator — is well-formed and `skip_rational` returns the tail, but
`get_number_view` reaches the negation of `i64::MIN` inside `get_frac_i64`,
an overflow panic, so it does not return the tail: the claimed universal
agreement of the two remaining slices fails on this buffer. -/
theorem c8_sign_u64_counterexample :
    WFRun [0x84, 0, 0, 0, 0, 0, 0, 0, 0x80] ∧
    skip_rational ([0x84, 0, 0, 0, 0, 0, 0, 0, 0x80] ++ [9]) = some [9] ∧
    get_number_view decTrivial ([0x84, 0, 0, 0, 0, 0, 0, 0, 0x80] ++ [9]) = none := by
  refine ⟨?_, by decide, by decide⟩
  exact WFRun.nat 0x84 [0, 0, 0, 0, 0, 0, 0, 0x80] []
    (Or.inr (Or.inr (Or.inr ⟨by decide, rfl⟩)))
    (Or.inl ⟨by decide, rfl⟩)

/-- C8 amended.  For every buffer consisting of one well-formed packed run
followed by an arbitrary tail `T`, `skip_rational` returns exactly `T`; and
provided the run is not a sign-negated u64 numerator with payload exactly
`2^63` (the one decode panic, see the counterexample), `get_number_view`
returns `T` as its remaining-slice component as well. -/
theorem c8_skip_view_agree (dec : List ℕ → ℚ) (run T : List ℕ) (h : WFRun run) :
    skip_rational (run ++ T) = some T ∧
    (view_sign_ok run → ∃ v, get_number_view dec (run ++ T) = some (v, T)) := by
  cases h with
  | nat disc np dp hnum hden =>
    constructor
    · show skip_rational (disc :: ((np ++ dp) ++ T)) = some T
      rcases hnum with ⟨h, hl⟩ | ⟨h, hl⟩ | ⟨h, hl⟩ | ⟨h, hl⟩ <;>
        rcases hden with ⟨h2, hl2⟩ | ⟨h2, hl2⟩ | ⟨h2, hl2⟩ | ⟨h2, hl2⟩ | ⟨h2, hl2⟩ <;>
        · simp only [skip_rational]
          rw [h, h2]
          exact advance_exact _ _ _ (by simp [hl, hl2])
    · intro hvs
      have hA : disc &&& NUM_MASK ≠ ARB_NUM := by
        rcases hnum with ⟨h, _⟩ | ⟨h, _⟩ | ⟨h, _⟩ | ⟨h, _⟩ <;> rw [h] <;> decide
      have hF : disc &&& NUM_MASK ≠ FIN_NUM := by
        rcases hnum with ⟨h, _⟩ | ⟨h, _⟩ | ⟨h, _⟩ | ⟨h, _⟩ <;> rw [h] <;> decide
      have hok : ¬ (disc &&& NUM_MASK = U64_NUM ∧ disc &&& SIGN ≠ 0 ∧
          leVal np = 2 ^ 63) := by
        rintro ⟨hU, hs, hv⟩
        have hl : np.length = 8 := by
          rcases hnum with ⟨h, hl⟩ | ⟨h, hl⟩ | ⟨h, hl⟩ | ⟨h, hl⟩
          · rw [h] at hU; exact absurd hU (by decide)
          · rw [h] at hU; exact absurd hU (by decide)
          · rw [h] at hU; exact absurd hU (by decide)
          · exact hl
        exact hvs ⟨hU, hs, by rw [List.take_left' hl]; exact hv⟩
      obtain ⟨n, d, hfrac⟩ := get_frac_i64_run disc np dp T hnum hden hok
      refine ⟨BorrowedNumber.Natural n d, ?_⟩
      show get_number_view dec (disc :: ((np ++ dp) ++ T)) = _
      rw [List.append_assoc]
      simp only [get_number_view, if_neg hA, if_neg hF, hfrac]
  | fin disc disc2 np dp hfin hnum hden =>
    constructor
    · show skip_rational (disc :: disc2 :: ((np ++ dp) ++ T)) = some T
      have hA : disc &&& NUM_MASK ≠ ARB_NUM := by rw [hfin]; decide
      rcases hnum with ⟨h, hl⟩ | ⟨h, hl⟩ | ⟨h, hl⟩ | ⟨h, hl⟩ <;>
        rcases hden with ⟨h2, hl2⟩ | ⟨h2, hl2⟩ | ⟨h2, hl2⟩ | ⟨h2, hl2⟩ | ⟨h2, hl2⟩ <;>
        · simp only [skip_rational]
          rw [if_neg hA, if_pos hfin]
          rw [h, h2]
          exact advance_exact _ _ _ (by simp [hl, hl2])
    · intro hvs
      have hA : disc &&& NUM_MASK ≠ ARB_NUM := by rw [hfin]; decide
      obtain ⟨n, d, hfrac⟩ := get_frac_u64_run disc2 np dp T hnum hden
      refine ⟨BorrowedNumber.FiniteField n d, ?_⟩
      show get_number_view dec (disc :: disc2 :: ((np ++ dp) ++ T)) = _
      rw [List.append_assoc]
      simp only [get_number_view, if_neg hA, if_pos hfin, hfrac]
  | arb disc payload harb hlen =>
    constructor
    · show skip_rational (disc :: (payload ++ T)) = some T
      simp only [skip_rational]
      rw [harb]
      exact advance_exact _ _ _ hlen
    · intro hvs
      refine ⟨BorrowedNumber.Large (dec ((payload ++ T).take ratSize)), ?_⟩
      show get_number_view dec (disc :: (payload ++ T)) = _
      simp only [get_number_view, if_pos harb]
      rw [if_pos (by rw [List.length_append, hlen]; omega), List.drop_left' hlen]

/-- C8 witness: the Natural run `[0x11, 0x02, 0x03]` (u8 numerator 2, u8
denominator 3) followed by tail `[9]`; the run is sign-safe, so both halves
of the amended statement apply. -/
theorem c8_skip_view_agree_witness :
    WFRun [0x11, 0x02, 0x03] ∧ view_sign_ok [0x11, 0x02, 0x03] ∧
    (skip_rational ([0x11, 0x02, 0x03] ++ [9]) = some [9] ∧
      ∃ v, get_number_view decTrivial ([0x11, 0x02, 0x03] ++ [9]) = some (v, [9])) :=
  have hwf : WFRun [0x11, 0x02, 0x03] :=
    WFRun.nat 0x11 [0x02] [0x03]
      (Or.inl ⟨by decide, rfl⟩) (Or.inr (Or.inl ⟨by decide, rfl⟩))
  have hres := c8_skip_view_agree decTrivial [0x11, 0x02, 0x03] [9] hwf
  ⟨hwf, by decide, hres.1, hres.2 (by decide)⟩

/-! ## Round-trip of the writer and the view outside the buggy region

Supporting development for the round-trip property: on Naturals whose
denominator magnitude is outside `[65535, 2^32 - 1)` (the region broken by
the stray byte, see the C1 theorem), `write_packed` followed by
`get_number_view` recovers the number and leaves exactly the tail. -/

theorem leBytes_length (w : ℕ) : ∀ v : ℕ, (leBytes w v).length = w := by
  induction w with
  | zero => intro v; rfl
  | succ k ih => intro v; simp [leBytes, ih]

theorem leVal_cons (b : ℕ) (l : List ℕ) : leVal (b :: l) = b + 256 * leVal l := rfl

theorem leVal_leBytes (w : ℕ) : ∀ v : ℕ, v < 256 ^ w → leVal (leBytes w v) = v := by
  induction w with
  | zero =>
    intro v hv
    interval_cases v
    rfl
  | succ k ih =>
    intro v hv
    rw [leBytes, leVal_cons, ih (v / 256) ?_]
    · omega
    · have : 256 ^ (k + 1) = 256 ^ k * 256 := by ring
      omega

theorem toI64_small {v : ℕ} (h : v < 2 ^ 63) : toI64 v = v := by
  unfold toI64
  rw [if_pos h]

theorem set_sign_cons (b : ℕ) (t : List ℕ) : set_sign (b :: t) = (b ||| SIGN) :: t := rfl

theorem or_sign_num (x : ℕ) : (x ||| SIGN) &&& NUM_MASK = x &&& NUM_MASK := by
  rw [Nat.and_distrib_right]
  have h : SIGN &&& NUM_MASK = 0 := by decide
  rw [h, Nat.or_zero]

theorem or_sign_den (x : ℕ) : (x ||| SIGN) &&& DEN_MASK = x &&& DEN_MASK := by
  rw [Nat.and_distrib_right]
  have h : SIGN &&& DEN_MASK = 0 := by decide
  rw [h, Nat.or_zero]

theorem or_sign_sign (x : ℕ) : (x ||| SIGN) &&& SIGN ≠ 0 := by
  intro h
  have htb := congrArg (fun v => v.testBit 7) h
  simp only [Nat.testBit_and, Nat.testBit_or] at htb
  have h128 : (SIGN).testBit 7 = true := by decide
  have h0 : (0 : ℕ).testBit 7 = false := by decide
  rw [h128, h0] at htb
  simp at htb

theorem readDenField_exact_val {c : ℕ} (dp rest : List ℕ)
    (hc : c = 0 ∧ dp.length = 0 ∨ c = U8_DEN ∧ dp.length = 1 ∨
          c = U16_DEN ∧ dp.length = 2 ∨ c = U32_DEN ∧ dp.length = 4 ∨
          c = U64_DEN ∧ dp.length = 8) :
    readDenField c (dp ++ rest) = some (if c = 0 then 1 else leVal dp, rest) := by
  rcases hc with ⟨rfl, hl⟩ | ⟨rfl, hl⟩ | ⟨rfl, hl⟩ | ⟨rfl, hl⟩ | ⟨rfl, hl⟩
  · obtain rfl : dp = [] := List.eq_nil_of_length_eq_zero hl
    rfl
  all_goals rw [if_neg (by decide)]
  all_goals exact readLE_exact _ _ _ hl

/-- A precise description of `get_number_view` on a Natural run: the numerator
is the little-endian value of the numerator field, negated when the sign bit
is set; a zero DEN field means denominator one. -/
theorem get_number_view_natural (dec : List ℕ → ℚ) (disc : ℕ) (np dp T : List ℕ)
    (hnum : disc &&& NUM_MASK = U8_NUM ∧ np.length = 1 ∨
            disc &&& NUM_MASK = U16_NUM ∧ np.length = 2 ∨
            disc &&& NUM_MASK = U32_NUM ∧ np.length = 4 ∨
            disc &&& NUM_MASK = U64_NUM ∧ np.length = 8)
    (hden : disc &&& DEN_MASK = 0 ∧ dp.length = 0 ∨
            disc &&& DEN_MASK = U8_DEN ∧ dp.length = 1 ∨
            disc &&& DEN_MASK = U16_DEN ∧ dp.length = 2 ∨
            disc &&& DEN_MASK = U32_DEN ∧ dp.length = 4 ∨
            disc &&& DEN_MASK = U64_DEN ∧ dp.length = 8)
    (hnp : leVal np < 2 ^ 63) (hdp : leVal dp < 2 ^ 63) :
    get_number_view dec ((disc :: (np ++ dp)) ++ T) =
      some (BorrowedNumber.Natural
        (if disc &&& SIGN ≠ 0 then -(leVal np : Int) else (leVal np : Int))
        (((if disc &&& DEN_MASK = 0 then 1 else leVal dp : ℕ) : Int)), T) := by
  have hA : disc &&& NUM_MASK ≠ ARB_NUM := by
    rcases hnum with ⟨h, _⟩ | ⟨h, _⟩ | ⟨h, _⟩ | ⟨h, _⟩ <;> rw [h] <;> decide
  have hF : disc &&& NUM_MASK ≠ FIN_NUM := by
    rcases hnum with ⟨h, _⟩ | ⟨h, _⟩ | ⟨h, _⟩ | ⟨h, _⟩ <;> rw [h] <;> decide
  have hn := readNumField_exact np (dp ++ T) hnum
  have hd := readDenField_exact_val dp T hden
  show get_number_view dec (disc :: ((np ++ dp) ++ T)) = _
  rw [List.append_assoc]
  simp only [get_number_view, if_neg hA, if_neg hF, get_frac_i64, hn, hd]
  have hnI : (if disc &&& NUM_MASK = U64_NUM then toI64 (leVal np) else ((leVal np : ℕ) : Int)) =
      ((leVal np : ℕ) : Int) := by
    split
    · exact toI64_small hnp
    · rfl
  have hdI : (if disc &&& DEN_MASK = U64_DEN then
        toI64 (if disc &&& DEN_MASK = 0 then 1 else leVal dp)
      else (((if disc &&& DEN_MASK = 0 then 1 else leVal dp : ℕ) : Int))) =
      (((if disc &&& DEN_MASK = 0 then 1 else leVal dp : ℕ) : Int)) := by
    split
    · apply toI64_small
      split
      · decide
      · exact hdp
    · rfl
  rw [hnI, hdI]
  by_cases hs : disc &&& SIGN ≠ 0
  · have hne : ((leVal np : ℕ) : Int) ≠ i64Min := by
      unfold i64Min
      omega
    rw [if_pos hs, if_neg hne, if_pos hs]
  · rw [if_neg hs, if_neg hs]

/-- Decoding the bytes the `(i64, i64)` writer produces for one region
combination: `base` is the tag byte before the sign bit, `np`/`dp` the field
bytes. -/
theorem roundtrip_finish (dec : List ℕ → ℚ) (n d : Int) (T : List ℕ)
    (base : ℕ) (np dp : List ℕ)
    (hnum : base &&& NUM_MASK = U8_NUM ∧ np.length = 1 ∨
            base &&& NUM_MASK = U16_NUM ∧ np.length = 2 ∨
            base &&& NUM_MASK = U32_NUM ∧ np.length = 4 ∨
            base &&& NUM_MASK = U64_NUM ∧ np.length = 8)
    (hden : base &&& DEN_MASK = 0 ∧ dp.length = 0 ∨
            base &&& DEN_MASK = U8_DEN ∧ dp.length = 1 ∨
            base &&& DEN_MASK = U16_DEN ∧ dp.length = 2 ∨
            base &&& DEN_MASK = U32_DEN ∧ dp.length = 4 ∨
            base &&& DEN_MASK = U64_DEN ∧ dp.length = 8)
    (hsign0 : base &&& SIGN = 0)
    (hnp : leVal np < 2 ^ 63) (hdp : leVal dp < 2 ^ 63)
    (hnv : leVal np = n.natAbs)
    (hdv : ((if base &&& DEN_MASK = 0 then 1 else leVal dp : ℕ) : Int) = d) :
    get_number_view dec
        ((if n < 0 then set_sign (base :: (np ++ dp)) else base :: (np ++ dp)) ++ T) =
      some (BorrowedNumber.Natural n d, T) := by
  by_cases hneg : n < 0
  · rw [if_pos hneg, set_sign_cons]
    have hnum' := hnum
    rw [← or_sign_num base] at hnum'
    have hden' := hden
    rw [← or_sign_den base] at hden'
    rw [get_number_view_natural dec (base ||| SIGN) np dp T hnum' hden' hnp hdp]
    rw [if_pos (or_sign_sign base), or_sign_den]
    have hn' : -(leVal np : Int) = n := by
      rw [hnv]
      omega
    rw [hn', hdv]
  · rw [if_neg hneg]
    rw [get_number_view_natural dec base np dp T hnum hden hnp hdp]
    rw [if_neg (by simp [hsign0]), hdv]
    have hn' : ((leVal np : ℕ) : Int) = n := by
      rw [hnv]
      omega
    rw [hn']

/-- Round-trip of `write_packed` with `get_number_view` on the region the
stray-byte bug does not touch: for every `i64`-range `Natural(n, d)` with
`1 ≤ d`, `n ≠ i64::MIN` and `|d|` outside `[65535, 2^32 - 1)`, the writer
succeeds and the view returns exactly `Natural(n, d)` plus the unwritten
tail. -/
theorem roundtrip_good_region (dec : List ℕ → ℚ) (n d : Int) (T : List ℕ)
    (hn : inI64 n) (hnm : n ≠ i64Min) (hd1 : 1 ≤ d) (hdM : d ≤ i64Max)
    (hgood : ¬ (65535 ≤ d ∧ d < (u32Max : Int))) :
    ∃ B, write_packed_i64 n d = some B ∧
      get_number_view dec (B ++ T) = some (BorrowedNumber.Natural n d, T) := by
  have hn' : -(2 ^ 63) ≤ n ∧ n ≤ 2 ^ 63 - 1 := hn
  have hnm' : n ≠ -(2 ^ 63) := hnm
  have hdM' : d ≤ 2 ^ 63 - 1 := hdM
  set N : ℕ := n.natAbs with hNdef
  set D : ℕ := d.natAbs with hDdef
  have hNd : (N : Int) = |n| := by rw [hNdef, Int.abs_eq_natAbs]
  have hDd : (D : Int) = d := by omega
  have hNlt : N < 2 ^ 63 := by omega
  have hDlt : D < 2 ^ 63 := by omega
  have hD1 : 1 ≤ D := by omega
  have habsn : checked_abs n = some (N : Int) := by
    unfold checked_abs inI64 i64Min i64Max
    rw [if_pos ?_]
    · rw [← hNd]
    · constructor
      · exact le_trans (by norm_num) (abs_nonneg n)
      · rw [← hNd]
        omega
  have habsd : checked_abs d = some (D : Int) := by
    unfold checked_abs inI64 i64Min i64Max
    rw [if_pos ?_]
    · rw [abs_of_pos (by omega), ← hDd]
    · constructor
      · exact le_trans (by norm_num) (abs_nonneg d)
      · rw [abs_of_pos (by omega)]
        omega
  have hw : write_packed_i64 n d =
      some (if n < 0 then set_sign (write_packed_u64 N D) else write_packed_u64 N D) := by
    unfold write_packed_i64
    rw [habsn, habsd]
    dsimp only
    rw [Int.toNat_natCast, Int.toNat_natCast]
    congr 1
    apply if_congr ?_ rfl rfl
    omega
  refine ⟨_, hw, ?_⟩
  have hu32 : u32Max = 4294967295 := rfl
  by_cases hN1 : N < 255
  · -- numerator u8
    by_cases hE1 : D = 1
    · have hsh : write_packed_u64 N D = (U8_NUM ||| 0) :: (leBytes 1 N ++ []) := by
        simp only [write_packed_u64, if_pos hN1, if_pos hE1]
      rw [hsh]
      exact roundtrip_finish dec n d T _ _ _
        (Or.inl ⟨by decide, leBytes_length 1 N⟩) (Or.inl ⟨by decide, rfl⟩) (by decide)
        (by rw [leVal_leBytes 1 N (by omega)]; exact hNlt) (by decide)
        (by rw [leVal_leBytes 1 N (by omega)])
        (by rw [if_pos (by decide)]; push_cast; omega)
    · by_cases hD1 : D < 255
      · have hsh : write_packed_u64 N D = (U8_NUM ||| U8_DEN) :: (leBytes 1 N ++ leBytes 1 D) := by
          simp only [write_packed_u64, if_pos hN1, if_neg hE1, if_pos hD1]
        rw [hsh]
        exact roundtrip_finish dec n d T _ _ _
          (Or.inl ⟨by decide, leBytes_length 1 N⟩)
          (Or.inr (Or.inl ⟨by decide, leBytes_length 1 D⟩)) (by decide)
          (by rw [leVal_leBytes 1 N (by omega)]; exact hNlt)
          (by rw [leVal_leBytes 1 D (by omega)]; exact hDlt)
          (by rw [leVal_leBytes 1 N (by omega)])
          (by rw [if_neg (by decide), leVal_leBytes 1 D (by omega)]; exact hDd)
      · by_cases hD2 : D < 65535
        · have hsh : write_packed_u64 N D =
              (U8_NUM ||| U16_DEN) :: (leBytes 1 N ++ leBytes 2 D) := by
            simp only [write_packed_u64, if_pos hN1, if_neg hE1, if_neg hD1, if_pos hD2]
          rw [hsh]
          exact roundtrip_finish dec n d T _ _ _
            (Or.inl ⟨by decide, leBytes_length 1 N⟩)
            (Or.inr (Or.inr (Or.inl ⟨by decide, leBytes_length 2 D⟩))) (by decide)
            (by rw [leVal_leBytes 1 N (by omega)]; exact hNlt)
            (by rw [leVal_leBytes 2 D (by omega)]; exact hDlt)
            (by rw [leVal_leBytes 1 N (by omega)])
            (by rw [if_neg (by decide), leVal_leBytes 2 D (by omega)]; exact hDd)
        · by_cases hD3 : D < u32Max
          · exact absurd (by rw [hu32] at hD3; constructor <;> omega) hgood
          · have hsh : write_packed_u64 N D =
                (U8_NUM ||| U64_DEN) :: (leBytes 1 N ++ leBytes 8 D) := by
              simp only [write_packed_u64, if_pos hN1, if_neg hE1, if_neg hD1, if_neg hD2,
                if_neg hD3]
            rw [hsh]
            exact roundtrip_finish dec n d T _ _ _
              (Or.inl ⟨by decide, leBytes_length 1 N⟩)
              (Or.inr (Or.inr (Or.inr (Or.inr ⟨by decide, leBytes_length 8 D⟩)))) (by decide)
              (by rw [leVal_leBytes 1 N (by omega)]; exact hNlt)
              (by rw [leVal_leBytes 8 D (by omega)]; exact hDlt)
              (by rw [leVal_leBytes 1 N (by omega)])
              (by rw [if_neg (by decide), leVal_leBytes 8 D (by omega)]; exact hDd)
  · by_cases hN2 : N < 65535
    · -- numerator u16
      by_cases hE1 : D = 1
      · have hsh : write_packed_u64 N D = (U16_NUM ||| 0) :: (leBytes 2 N ++ []) := by
          simp only [write_packed_u64, if_neg hN1, if_pos hN2, if_pos hE1]
        rw [hsh]
        exact roundtrip_finish dec n d T _ _ _
          (Or.inr (Or.inl ⟨by decide, leBytes_length 2 N⟩)) (Or.inl ⟨by decide, rfl⟩) (by decide)
          (by rw [leVal_leBytes 2 N (by omega)]; exact hNlt) (by decide)
          (by rw [leVal_leBytes 2 N (by omega)])
          (by rw [if_pos (by decide)]; push_cast; omega)
      · by_cases hD1 : D < 255
        · have hsh : write_packed_u64 N D =
              (U16_NUM ||| U8_DEN) :: (leBytes 2 N ++ leBytes 1 D) := by
            simp only [write_packed_u64, if_neg hN1, if_pos hN2, if_neg hE1, if_pos hD1]
          rw [hsh]
          exact roundtrip_finish dec n d T _ _ _
            (Or.inr (Or.inl ⟨by decide, leBytes_length 2 N⟩))
            (Or.inr (Or.inl ⟨by decide, leBytes_length 1 D⟩)) (by decide)
            (by rw [leVal_leBytes 2 N (by omega)]; exact hNlt)
            (by rw [leVal_leBytes 1 D (by omega)]; exact hDlt)
            (by rw [leVal_leBytes 2 N (by omega)])
            (by rw [if_neg (by decide), leVal_leBytes 1 D (by omega)]; exact hDd)
        · by_cases hD2 : D < 65535
          · have hsh : write_packed_u64 N D =
                (U16_NUM ||| U16_DEN) :: (leBytes 2 N ++ leBytes 2 D) := by
              simp only [write_packed_u64, if_neg hN1, if_pos hN2, if_neg hE1, if_neg hD1,
                if_pos hD2]
            rw [hsh]
            exact roundtrip_finish dec n d T _ _ _
              (Or.inr (Or.inl ⟨by decide, leBytes_length 2 N⟩))
              (Or.inr (Or.inr (Or.inl ⟨by decide, leBytes_length 2 D⟩))) (by decide)
              (by rw [leVal_leBytes 2 N (by omega)]; exact hNlt)
              (by rw [leVal_leBytes 2 D (by omega)]; exact hDlt)
              (by rw [leVal_leBytes 2 N (by omega)])
              (by rw [if_neg (by decide), leVal_leBytes 2 D (by omega)]; exact hDd)
          · by_cases hD3 : D < u32Max
            · exact absurd (by rw [hu32] at hD3; constructor <;> omega) hgood
            · have hsh : write_packed_u64 N D =
                  (U16_NUM ||| U64_DEN) :: (leBytes 2 N ++ leBytes 8 D) := by
                simp only [write_packed_u64, if_neg hN1, if_pos hN2, if_neg hE1, if_neg hD1,
                  if_neg hD2, if_neg hD3]
              rw [hsh]
              exact roundtrip_finish dec n d T _ _ _
                (Or.inr (Or.inl ⟨by decide, leBytes_length 2 N⟩))
                (Or.inr (Or.inr (Or.inr (Or.inr ⟨by decide, leBytes_length 8 D⟩)))) (by decide)
                (by rw [leVal_leBytes 2 N (by omega)]; exact hNlt)
                (by rw [leVal_leBytes 8 D (by omega)]; exact hDlt)
                (by rw [leVal_leBytes 2 N (by omega)])
                (by rw [if_neg (by decide), leVal_leBytes 8 D (by omega)]; exact hDd)
    · by_cases hN3 : N < u32Max
      · -- numerator u32
        by_cases hE1 : D = 1
        · have hsh : write_packed_u64 N D = (U32_NUM ||| 0) :: (leBytes 4 N ++ []) := by
            simp only [write_packed_u64, if_neg hN1, if_neg hN2, if_pos hN3, if_pos hE1]
          rw [hsh]
          exact roundtrip_finish dec n d T _ _ _
            (Or.inr (Or.inr (Or.inl ⟨by decide, leBytes_length 4 N⟩)))
            (Or.inl ⟨by decide, rfl⟩) (by decide)
            (by rw [leVal_leBytes 4 N (by rw [hu32] at hN3; omega)]; exact hNlt) (by decide)
            (by rw [leVal_leBytes 4 N (by rw [hu32] at hN3; omega)])
            (by rw [if_pos (by decide)]; push_cast; omega)
        · by_cases hD1 : D < 255
          · have hsh : write_packed_u64 N D =
                (U32_NUM ||| U8_DEN) :: (leBytes 4 N ++ leBytes 1 D) := by
              simp only [write_packed_u64, if_neg hN1, if_neg hN2, if_pos hN3, if_neg hE1,
                if_pos hD1]
            rw [hsh]
            exact roundtrip_finish dec n d T _ _ _
              (Or.inr (Or.inr (Or.inl ⟨by decide, leBytes_length 4 N⟩)))
              (Or.inr (Or.inl ⟨by decide, leBytes_length 1 D⟩)) (by decide)
              (by rw [leVal_leBytes 4 N (by rw [hu32] at hN3; omega)]; exact hNlt)
              (by rw [leVal_leBytes 1 D (by omega)]; exact hDlt)
              (by rw [leVal_leBytes 4 N (by rw [hu32] at hN3; omega)])
              (by rw [if_neg (by decide), leVal_leBytes 1 D (by omega)]; exact hDd)
          · by_cases hD2 : D < 65535
            · have hsh : write_packed_u64 N D =
                  (U32_NUM ||| U16_DEN) :: (leBytes 4 N ++ leBytes 2 D) := by
                simp only [write_packed_u64, if_neg hN1, if_neg hN2, if_pos hN3, if_neg hE1,
                  if_neg hD1, if_pos hD2]
              rw [hsh]
              exact roundtrip_finish dec n d T _ _ _
                (Or.inr (Or.inr (Or.inl ⟨by decide, leBytes_length 4 N⟩)))
                (Or.inr (Or.inr (Or.inl ⟨by decide, leBytes_length 2 D⟩))) (by decide)
                (by rw [leVal_leBytes 4 N (by rw [hu32] at hN3; omega)]; exact hNlt)
                (by rw [leVal_leBytes 2 D (by omega)]; exact hDlt)
                (by rw [leVal_leBytes 4 N (by rw [hu32] at hN3; omega)])
                (by rw [if_neg (by decide), leVal_leBytes 2 D (by omega)]; exact hDd)
            · by_cases hD3 : D < u32Max
              · exact absurd (by rw [hu32] at hD3; constructor <;> omega) hgood
              · have hsh : write_packed_u64 N D =
                    (U32_NUM ||| U64_DEN) :: (leBytes 4 N ++ leBytes 8 D) := by
                  simp only [write_packed_u64, if_neg hN1, if_neg hN2, if_pos hN3, if_neg hE1,
                    if_neg hD1, if_neg hD2, if_neg hD3]
                rw [hsh]
                exact roundtrip_finish dec n d T _ _ _
                  (Or.inr (Or.inr (Or.inl ⟨by decide, leBytes_length 4 N⟩)))
                  (Or.inr (Or.inr (Or.inr (Or.inr ⟨by decide, leBytes_length 8 D⟩)))) (by decide)
                  (by rw [leVal_leBytes 4 N (by rw [hu32] at hN3; omega)]; exact hNlt)
                  (by rw [leVal_leBytes 8 D (by omega)]; exact hDlt)
                  (by rw [leVal_leBytes 4 N (by rw [hu32] at hN3; omega)])
                  (by rw [if_neg (by decide), leVal_leBytes 8 D (by omega)]; exact hDd)
      · -- numerator u64
        by_cases hE1 : D = 1
        · have hsh : write_packed_u64 N D = (U64_NUM ||| 0) :: (leBytes 8 N ++ []) := by
            simp only [write_packed_u64, if_neg hN1, if_neg hN2, if_neg hN3, if_pos hE1]
          rw [hsh]
          exact roundtrip_finish dec n d T _ _ _
            (Or.inr (Or.inr (Or.inr ⟨by decide, leBytes_length 8 N⟩)))
            (Or.inl ⟨by decide, rfl⟩) (by decide)
            (by rw [leVal_leBytes 8 N (by omega)]; exact hNlt) (by decide)
            (by rw [leVal_leBytes 8 N (by omega)])
            (by rw [if_pos (by decide)]; push_cast; omega)
        · by_cases hD1 : D < 255
          · have hsh : write_packed_u64 N D =
                (U64_NUM ||| U8_DEN) :: (leBytes 8 N ++ leBytes 1 D) := by
              simp only [write_packed_u64, if_neg hN1, if_neg hN2, if_neg hN3, if_neg hE1,
                if_pos hD1]
            rw [hsh]
            exact roundtrip_finish dec n d T _ _ _
              (Or.inr (Or.inr (Or.inr ⟨by decide, leBytes_length 8 N⟩)))
              (Or.inr (Or.inl ⟨by decide, leBytes_length 1 D⟩)) (by decide)
              (by rw [leVal_leBytes 8 N (by omega)]; exact hNlt)
              (by rw [leVal_leBytes 1 D (by omega)]; exact hDlt)
              (by rw [leVal_leBytes 8 N (by omega)])
              (by rw [if_neg (by decide), leVal_leBytes 1 D (by omega)]; exact hDd)
          · by_cases hD2 : D < 65535
            · have hsh : write_packed_u64 N D =
                  (U64_NUM ||| U16_DEN) :: (leBytes 8 N ++ leBytes 2 D) := by
                simp only [write_packed_u64, if_neg hN1, if_neg hN2, if_neg hN3, if_neg hE1,
                  if_neg hD1, if_pos hD2]
              rw [hsh]
              exact roundtrip_finish dec n d T _ _ _
                (Or.inr (Or.inr (Or.inr ⟨by decide, leBytes_length 8 N⟩)))
                (Or.inr (Or.inr (Or.inl ⟨by decide, leBytes_length 2 D⟩))) (by decide)
                (by rw [leVal_leBytes 8 N (by omega)]; exact hNlt)
                (by rw [leVal_leBytes 2 D (by omega)]; exact hDlt)
                (by rw [leVal_leBytes 8 N (by omega)])
                (by rw [if_neg (by decide), leVal_leBytes 2 D (by omega)]; exact hDd)
            · by_cases hD3 : D < u32Max
              · exact absurd (by rw [hu32] at hD3; constructor <;> omega) hgood
              · have hsh : write_packed_u64 N D =
                    (U64_NUM ||| U64_DEN) :: (leBytes 8 N ++ leBytes 8 D) := by
                  simp only [write_packed_u64, if_neg hN1, if_neg hN2, if_neg hN3, if_neg hE1,
                    if_neg hD1, if_neg hD2, if_neg hD3]
                rw [hsh]
                exact roundtrip_finish dec n d T _ _ _
                  (Or.inr (Or.inr (Or.inr ⟨by decide, leBytes_length 8 N⟩)))
                  (Or.inr (Or.inr (Or.inr (Or.inr ⟨by decide, leBytes_length 8 D⟩)))) (by decide)
                  (by rw [leVal_leBytes 8 N (by omega)]; exact hNlt)
                  (by rw [leVal_leBytes 8 D (by omega)]; exact hDlt)
                  (by rw [leVal_leBytes 8 N (by omega)])
                  (by rw [if_neg (by decide), leVal_leBytes 8 D (by omega)]; exact hDd)

end Symbolica
